import Mathlib

/-!
# Verification of `peak_finder.line_group`

Shallow embedding of `src/peak_finder/line_group.py` (class `LineGroup`) and
of the data records it manipulates.  Code present in `src/` is translated
directly; the records `Anomaly`, `LinePosition`, `LineData` and
`AnomalyGroup` live in repository files that are not under `src/`
(`anomaly.py`, `line_position.py`, `line_data.py`, `anomaly_group.py`), so
they are modelled from the spec as plain data carriers, as documented on
each structure.

Floating-point values (peak positions, sampling, separations) are modelled
as exact rationals `ℚ`; array indices as `ℕ`.  numpy arrays are modelled as
`List`s, `arr[i]` as `List.getD i default`.
-/

/-- Modelled from the spec: `Anomaly` (file `anomaly.py` is not under
`src/`).  "{start, end, peak, inflect_up, inflect_down} — integer indices
into the resampled sequence".  The back-reference to the owning channel and
the amplitude play no role in the claims and are omitted.  `end` is a Lean
keyword, hence the field name `end_`. -/
structure Anomaly where
  start : ℕ
  end_ : ℕ
  peak : ℕ
  inflect_up : ℕ
  inflect_down : ℕ
  deriving DecidableEq

instance : Inhabited Anomaly := ⟨⟨0, 0, 0, 0, 0⟩⟩

/-- Modelled from the spec: `LinePosition` (file `line_position.py` is not
under `src/`).  It carries the resampled locations, the (possibly
undefined) uniform sampling step, and the azimuth data returned by
`compute_azimuth()`. -/
structure LinePosition where
  locations_resampled : List ℚ
  sampling : Option ℚ
  azimuth : List ℚ
  deriving DecidableEq

/-- Modelled from the spec: `LinePosition.compute_azimuth` — "bearing of the
line's dominant direction"; a pure accessor of precomputed azimuth data. -/
def LinePosition.compute_azimuth (p : LinePosition) : List ℚ :=
  p.azimuth

/-- Modelled from the spec: `LineData` (file `line_data.py` is not under
`src/`): "holds resampled/smoothed values ... plus its derived list of
Anomaly records".  The anomaly list is taken as given data (peak detection
is outside `line_group.py`). -/
structure LineData where
  values_resampled : List ℚ
  anomalies : List Anomaly
  deriving DecidableEq

/-- Modelled from the spec: `AnomalyGroup` (file `anomaly_group.py` is not
under `src/`).  Fields are those `LineGroup` reads and writes:
`anomalies`, `full_azimuth`, `full_peak_values` and `subgroups`.  The
shared references `position`, `property_group` and `channels` carry no
information used by any claim and are omitted.  Per the spec's design note,
subgroup identity is modelled as "a stable, hashable composite key": each
base group receives a fresh natural-number identity, and `subgroups` is the
`Finset ℕ` of constituent identities.  A base group "stands alone", i.e.
its `subgroups` is its own singleton identity, so that the union of the two
operands' `subgroups` counts constituents exactly as §4.4 of the spec
describes. -/
structure AnomalyGroup where
  anomalies : List Anomaly
  full_azimuth : List ℚ
  full_peak_values : List ℚ
  subgroups : Finset ℕ
  deriving DecidableEq

instance : Inhabited AnomalyGroup := ⟨⟨[], [], [], ∅⟩⟩

/-- Modelled from the spec: derived attribute "`start` = min anomaly.start"
of `AnomalyGroup`. -/
def AnomalyGroup.start (g : AnomalyGroup) : ℕ :=
  match g.anomalies.map Anomaly.start with
  | [] => 0
  | x :: xs => xs.foldl min x

/-- Modelled from the spec: derived attribute "`end` = max anomaly.end"
of `AnomalyGroup`. -/
def AnomalyGroup.end_ (g : AnomalyGroup) : ℕ :=
  match g.anomalies.map Anomaly.end_ with
  | [] => 0
  | x :: xs => xs.foldl max x

/-- `LineGroup.__init__`: the parameters of the computation for one
(line segment, property group) pair.  `line_dataset` is the ordered list of
the property group's channels (the values of the `channels` dict in
property order; the `channels` getter in the source always produces a dict,
never `None`, so the `self.channels is None` guards in the source are
vacuous).  `minimal_output` is never read by the computations and is
omitted. -/
structure LineGroup where
  position : LinePosition
  line_dataset : List LineData
  max_migration : ℚ
  min_channels : ℕ
  n_groups : ℕ
  max_separation : ℚ
  deriving DecidableEq

namespace LineGroup

/-! ## `get_near_peaks` -/

/-- `dist = np.abs(peaks_position[ind] - peaks_position)`, at index `j`. -/
def dist_to (peaks_position : List ℚ) (ind j : ℕ) : ℚ :=
  |peaks_position.getD ind 0 - peaks_position.getD j 0|

/-- `near = np.where(dist < self.max_migration)[0]`. -/
def near_within (max_migration : ℚ) (peaks_position : List ℚ) (ind : ℕ) :
    List ℕ :=
  (List.range peaks_position.length).filter
    (fun j => dist_to peaks_position ind j < max_migration)

/-- `np.unique`: the sorted list of distinct values. -/
def sorted_unique (l : List ℕ) : List ℕ :=
  (List.insertionSort (fun a b => a ≤ b) l).dedup

/-- Scan of `u_gates[1:] - u_gates[:-1] > 2`: the value standing right
before the first consecutive gap `> 2`, if any.  (The source's guard
`len(u_gates) > 1 and np.any(... > 2)` holds exactly when this scan finds a
gap.) -/
def find_cutoff : List ℕ → Option ℕ
  | a :: b :: rest => if 2 < b - a then some a else find_cutoff (b :: rest)
  | _ => none

/-- The gap-rejection step of `get_near_peaks`:
`near = near[full_channel[near] <= cutoff]` when a channel gap `> 2`
exists, `near` unchanged otherwise. -/
def gap_trunc (full_channel : List ℕ) (near : List ℕ) : List ℕ :=
  match find_cutoff (sorted_unique (near.map (full_channel.getD · 0))) with
  | some cutoff => near.filter (fun j => full_channel.getD j 0 ≤ cutoff)
  | none => near

/-- `np.argmin(dist[near][sub_ind])` resolved to the member itself: the
member of `near` on channel `gate` of minimal `dist`, the earliest one on
ties (as `np.argmin` returns the first minimiser). -/
def nearest_in (full_channel : List ℕ) (peaks_position : List ℚ) (ind : ℕ)
    (near : List ℕ) (gate : ℕ) : Option ℕ :=
  near.foldl
    (fun acc j =>
      if full_channel.getD j 0 = gate then
        match acc with
        | none => some j
        | some k =>
          if dist_to peaks_position ind j < dist_to peaks_position ind k then
            some j
          else some k
      else acc)
    none

/-- One pass of the source's duplicate-resolution loop body: for channel
`gate`, drop every member of `near` on that channel except the nearest
one. -/
def keep_nearest (full_channel : List ℕ) (peaks_position : List ℚ)
    (ind : ℕ) (near : List ℕ) (gate : ℕ) : List ℕ :=
  match nearest_in full_channel peaks_position ind near gate with
  | some j0 =>
      near.filter (fun j => full_channel.getD j 0 ≠ gate ∨ j = j0)
  | none => near

/-- `LineGroup.get_near_peaks`: indices of peaks within the migration
distance of anomaly `ind`, after gap rejection and per-channel
nearest-duplicate resolution. -/
def get_near_peaks (lg : LineGroup) (ind : ℕ) (full_channel : List ℕ)
    (peaks_position : List ℚ) : List ℕ :=
  let near0 := near_within lg.max_migration peaks_position ind
  let near1 := gap_trunc full_channel near0
  let gates :=
    (sorted_unique (near1.map (full_channel.getD · 0))).filter
      (fun g => 1 < (near1.map (full_channel.getD · 0)).count g)
  gates.foldl (keep_nearest full_channel peaks_position ind) near1

end LineGroup

/-! ## `group_n_groups` -/

/-- `np.searchsorted`'s bisection loop, `side='left'`: while `lo < hi`,
probe `mid = (lo + hi) // 2` and move `lo` past `mid` when `a[mid] < v`,
else move `hi` down to `mid`.  Structural recursion on a fuel that bounds
`hi - lo`. -/
def bisect_left_aux (a : List ℚ) (v : ℚ) : ℕ → ℕ → ℕ → ℕ
  | 0, lo, _ => lo
  | fuel + 1, lo, hi =>
    if lo < hi then
      let mid := (lo + hi) / 2
      if a.getD mid 0 < v then bisect_left_aux a v fuel (mid + 1) hi
      else bisect_left_aux a v fuel lo mid
    else lo

/-- `np.searchsorted`'s bisection loop, `side='right'`: moves `lo` past
`mid` when `a[mid] <= v`. -/
def bisect_right_aux (a : List ℚ) (v : ℚ) : ℕ → ℕ → ℕ → ℕ
  | 0, lo, _ => lo
  | fuel + 1, lo, hi =>
    if lo < hi then
      let mid := (lo + hi) / 2
      if a.getD mid 0 ≤ v then bisect_right_aux a v fuel (mid + 1) hi
      else bisect_right_aux a v fuel lo mid
    else lo

/-- `np.searchsorted(a, v, side='left')`. -/
def searchsorted_left (a : List ℚ) (v : ℚ) : ℕ :=
  bisect_left_aux a v a.length 0 a.length

/-- `np.searchsorted(a, v, side='right')`. -/
def searchsorted_right (a : List ℚ) (v : ℚ) : ℕ :=
  bisect_right_aux a v a.length 0 a.length

/-- The comparison `group.start <= other.start` used to sort the working
list (`np.argsort([group.start for group in groups])`). -/
def start_le (a b : AnomalyGroup) : Prop :=
  a.start ≤ b.start

instance : DecidableRel start_le := fun _ _ => inferInstanceAs (Decidable (_ ≤ _))

instance : IsTotal AnomalyGroup start_le := ⟨fun a b => Nat.le_total a.start b.start⟩

instance : IsTrans AnomalyGroup start_le := ⟨fun _ _ _ => Nat.le_trans⟩

/-- `groups = list(np.array(groups)[sort_inds])`: the working list sorted
by group starts. -/
def sort_by_start (groups : List AnomalyGroup) : List AnomalyGroup :=
  List.insertionSort start_le groups

namespace LineGroup

/-- The candidate partner range of one group `g`:
`start_ind = np.searchsorted(all_ends, group.start - delta_ind, side='left')`,
`end_ind = np.searchsorted(all_starts, group.end + delta_ind, side='right') - 1`,
`in_range = np.arange(start_ind, end_ind + 1)`, with
`delta_ind = self.max_separation / self.position.sampling` (`s` is the
sampling value) and `all_starts`/`all_ends` drawn from the start-sorted
working list `sorted_groups`. -/
def in_range_of (lg : LineGroup) (s : ℚ) (sorted_groups : List AnomalyGroup)
    (g : AnomalyGroup) : List ℕ :=
  let all_starts : List ℚ := sorted_groups.map (fun h => (h.start : ℚ))
  let all_ends : List ℚ := sorted_groups.map (fun h => (h.end_ : ℚ))
  let delta_ind := lg.max_separation / s
  let start_ind := searchsorted_left all_ends ((g.start : ℚ) - delta_ind)
  let stop_ind := searchsorted_right all_starts ((g.end_ : ℚ) + delta_ind)
  List.range' start_ind (stop_ind - start_ind)

/-- The composite built from operands `g` and `gi`
(`AnomalyGroup(position=..., anomalies=np.concatenate(...), ...)`):
fields are concatenations, `subgroups` the union. -/
def mk_merged (g gi : AnomalyGroup) : AnomalyGroup :=
  { anomalies := g.anomalies ++ gi.anomalies
    full_azimuth := g.full_azimuth ++ gi.full_azimuth
    full_peak_values := g.full_peak_values ++ gi.full_peak_values
    subgroups := g.subgroups ∪ gi.subgroups }

/-- The inner loop `for i in in_range:` of `group_n_groups` for one group
`g`: skip partners whose `subgroups` intersect `g`'s, and synthesize a
composite when the subgroup count stays within `n_groups`. -/
def merge_candidates (lg : LineGroup) (s : ℚ)
    (sorted_groups : List AnomalyGroup) (g : AnomalyGroup) : List AnomalyGroup :=
  (lg.in_range_of s sorted_groups g).filterMap
    (fun i =>
      let gi := sorted_groups.getD i default
      if (gi.subgroups ∩ g.subgroups) ≠ ∅ then none
      else if gi.subgroups.card + g.subgroups.card ≤ lg.n_groups then
        some (mk_merged g gi)
      else none)

/-- All composites synthesized in one pass of the outer
`for group in groups:` loop (the `merged` list). -/
def new_composites (lg : LineGroup) (s : ℚ) (groups : List AnomalyGroup) :
    List AnomalyGroup :=
  (sort_by_start groups).flatMap (lg.merge_candidates s (sort_by_start groups))

/-- One iteration of the `for _ in range(self.n_groups):` loop:
sort the working list by starts, synthesize composites, and append them
(`groups += merged`). -/
def merge_step (lg : LineGroup) (s : ℚ) (groups : List AnomalyGroup) :
    List AnomalyGroup :=
  sort_by_start groups ++ lg.new_composites s groups

/-- The final filter of `group_n_groups`: keep groups whose `subgroups`
size equals `n_groups`, deduplicating by subgroup-set identity
(`unique_groups` collects the subgroup sets already emitted). -/
def dedup_filter (n : ℕ) (groups : List AnomalyGroup) : List AnomalyGroup :=
  (groups.foldl
    (fun (acc : List (Finset ℕ) × List AnomalyGroup) g =>
      if g.subgroups.card = n ∧ g.subgroups ∉ acc.1 then
        (acc.1 ++ [g.subgroups], acc.2 ++ [g])
      else acc)
    ([], [])).2

/-- `LineGroup.group_n_groups`: merge consecutive peaks into groups of
`n_groups`.  When the position's sampling is undefined the input list is
returned unchanged (the source's `self.channels is None` disjunct is
vacuous, see `LineGroup.line_dataset`). -/
def group_n_groups (lg : LineGroup) (groups : List AnomalyGroup) :
    List AnomalyGroup :=
  match lg.position.sampling with
  | none => groups
  | some s => dedup_filter lg.n_groups ((lg.merge_step s)^[lg.n_groups] groups)

/-! ## `compute` -/

/-- `LineGroup.get_anomaly_attributes`: flatten the channels' anomaly lists
into one list of records `(anomaly, channel index, peak position,
peak value)` (`locs[anom.peak]`, `values[anom.peak]`). -/
def get_anomaly_attributes (line_data_subset : List LineData)
    (locs : List ℚ) : List (Anomaly × ℕ × ℚ × ℚ) :=
  (line_data_subset.enum.map
    (fun p =>
      p.2.anomalies.map
        (fun a =>
          (a, p.1, locs.getD a.peak 0, p.2.values_resampled.getD a.peak 0)))).flatten

/-- The scan state of `compute`: `full_group_ids` (initialised to `-1`),
the running `group_id` counter (initialised to `-1`), and the list of
emitted groups. -/
structure ScanState where
  ids : List ℤ
  gid : ℤ
  groups : List AnomalyGroup
  deriving DecidableEq

/-- One iteration of `compute`'s `for ind, _ in enumerate(full_anomalies):`
loop: skip anomalies already labeled; otherwise advance `group_id`, gather
the near peaks, discard the candidate when fewer than `min_channels`
distinct channels remain or the near set is empty, and otherwise mark the
members and emit a base `AnomalyGroup` (whose `subgroups` is its own fresh
identity, see `AnomalyGroup`). -/
def scan_step (lg : LineGroup) (attrs : List (Anomaly × ℕ × ℚ × ℚ))
    (s : ScanState) (ind : ℕ) : ScanState :=
  if s.ids.getD ind (-1) ≠ -1 then s
  else
    let gid' := s.gid + 1
    let full_channels := attrs.map (fun t => t.2.1)
    let full_positions := attrs.map (fun t => t.2.2.1)
    let near := lg.get_near_peaks ind full_channels full_positions
    if (near.map (full_channels.getD · 0)).toFinset.card < lg.min_channels ∨
        near = [] then
      { s with gid := gid' }
    else
      { ids := s.ids.mapIdx (fun i x => if i ∈ near then gid' else x)
        gid := gid'
        groups := s.groups ++
          [{ anomalies := near.map (fun i => (attrs.getD i default).1)
             full_azimuth := lg.position.compute_azimuth
             full_peak_values := near.map (fun i => (attrs.getD i default).2.2.2)
             subgroups := {gid'.toNat} }] }

/-- The whole clustering scan of `compute` (everything before the optional
merge). -/
def compute_scan (lg : LineGroup) : ScanState :=
  let attrs := get_anomaly_attributes lg.line_dataset
    lg.position.locations_resampled
  (List.range attrs.length).foldl (lg.scan_step attrs)
    ⟨List.replicate attrs.length (-1), -1, []⟩

/-- `LineGroup.compute`: the base clustering scan, followed by
`group_n_groups` when `self.n_groups > 1`. -/
def compute (lg : LineGroup) : List AnomalyGroup :=
  if 1 < lg.n_groups then lg.group_n_groups (lg.compute_scan).groups
  else (lg.compute_scan).groups

end LineGroup

/-! ## Concrete instances used as witnesses and counterexamples -/

/-- A base group with interval `[0, 1]` and identity `0`. -/
def gA : AnomalyGroup := ⟨[⟨0, 1, 0, 0, 0⟩], [], [], {0}⟩

/-- A base group with interval `[2, 3]` and identity `1`. -/
def gB : AnomalyGroup := ⟨[⟨2, 3, 0, 0, 0⟩], [], [], {1}⟩

/-- A `LineGroup` with sampling `1`, `n_groups = 2`, `max_separation = 10`. -/
def lgN2 : LineGroup := ⟨⟨[], some 1, []⟩, [], 1, 1, 2, 10⟩

/-- A `LineGroup` whose position has undefined sampling and `n_groups = 2`. -/
def lgNoSamp : LineGroup := ⟨⟨[], none, []⟩, [], 1, 1, 2, 10⟩

/-- A base group with interval `[0, 50]` (long interval, early start). -/
def cgLong : AnomalyGroup := ⟨[⟨0, 50, 0, 0, 0⟩], [], [], {0}⟩

/-- A base group with interval `[1, 1]` (short interval nested inside
`cgLong`'s). -/
def cgShort : AnomalyGroup := ⟨[⟨1, 1, 0, 0, 0⟩], [], [], {1}⟩

/-- A base group with interval `[2, 60]`. -/
def cgLate : AnomalyGroup := ⟨[⟨2, 60, 0, 0, 0⟩], [], [], {2}⟩

/-- A `LineGroup` with sampling `1` and `max_separation = 0` used to probe
the merge window search. -/
def lgWin : LineGroup := ⟨⟨[], some 1, []⟩, [], 1, 1, 2, 0⟩

/-- A `LineGroup` with `max_migration = 5`, `min_channels = 1`. -/
def lgMig : LineGroup := ⟨⟨[], some 1, []⟩, [], 5, 1, 2, 0⟩

/-- A `LineGroup` with `max_migration = 1`. -/
def lgMig1 : LineGroup := ⟨⟨[], some 1, []⟩, [], 1, 1, 2, 0⟩

/-- One channel whose values carry a single anomaly peaking at index 1. -/
def ldOne : LineData := ⟨[1, 2, 3], [⟨0, 2, 1, 0, 2⟩]⟩

/-- A complete `LineGroup` over `ldOne` with `n_groups = 1`. -/
def lgSingle : LineGroup := ⟨⟨[0, 1, 2], some 1, [90]⟩, [ldOne], 5, 1, 1, 0⟩

/-- A `LineGroup` demanding `min_channels = 2` (its single channel can
never satisfy it). -/
def lgTwoChan : LineGroup := ⟨⟨[0, 1, 2], some 1, [90]⟩, [ldOne], 5, 2, 1, 0⟩

/-- The flattened attribute list of `lgTwoChan`'s single anomaly. -/
def attrsOne : List (Anomaly × ℕ × ℚ × ℚ) := [(⟨0, 2, 1, 0, 2⟩, 0, 1, 2)]

/-! # Theorems -/

/-! ## C9 — `group_n_groups` with undefined sampling -/

/-- C9 (counterexample): with undefined sampling and a nonempty input,
`group_n_groups` does not signal "no result": its output is the nonempty
input list itself, so the claim's "empty or None output" is false. -/
theorem claim_C9_counterexample :
    lgNoSamp.position.sampling = none ∧
    lgNoSamp.group_n_groups [gA] = [gA] ∧ lgNoSamp.group_n_groups [gA] ≠ [] := by
  refine ⟨rfl, rfl, ?_⟩
  decide

/-- C9 (amended): for every `LineGroup` whose position has undefined
sampling, `group_n_groups` performs no merging and returns its input list
unchanged (rather than raising a fatal error). -/
theorem claim_C9 (lg : LineGroup) (groups : List AnomalyGroup)
    (h : lg.position.sampling = none) :
    lg.group_n_groups groups = groups := by
  unfold LineGroup.group_n_groups
  rw [h]

/-- C9 (witness). -/
theorem claim_C9_witness : lgNoSamp.group_n_groups [gA] = [gA] :=
  claim_C9 lgNoSamp [gA] rfl

/-! ## C8 — discarded clustering candidates -/

/-- C8: in `compute`'s scan, a candidate whose near set has fewer than
`min_channels` distinct channels or is empty produces no `AnomalyGroup` and
marks no anomaly with the group id: the scan state only advances the
`group_id` counter and moves on; and an anomaly already assigned a group id
is skipped with the state untouched. -/
theorem claim_C8 (lg : LineGroup) (attrs : List (Anomaly × ℕ × ℚ × ℚ))
    (s : LineGroup.ScanState) (ind : ℕ) :
    (s.ids.getD ind (-1) = -1 →
      ((lg.get_near_peaks ind (attrs.map (fun t => t.2.1))
            (attrs.map (fun t => t.2.2.1))).map
          ((attrs.map (fun t => t.2.1)).getD · 0)).toFinset.card <
          lg.min_channels ∨
        lg.get_near_peaks ind (attrs.map (fun t => t.2.1))
            (attrs.map (fun t => t.2.2.1)) = [] →
      lg.scan_step attrs s ind = { s with gid := s.gid + 1 }) ∧
    (s.ids.getD ind (-1) ≠ -1 → lg.scan_step attrs s ind = s) := by
  constructor
  · intro hunass hcond
    have hnn : ¬s.ids.getD ind (-1) ≠ -1 := by rw [hunass]; simp
    unfold LineGroup.scan_step
    rw [if_neg hnn, if_pos hcond]
  · intro hass
    unfold LineGroup.scan_step
    rw [if_pos hass]

set_option maxRecDepth 100000 in
/-- C8 (witness): a single-channel candidate against `min_channels = 2` is
discarded and the scan state only advances the id counter. -/
theorem claim_C8_witness :
    lgTwoChan.scan_step attrsOne ⟨[-1], -1, []⟩ 0 =
      { ids := [-1], gid := 0, groups := [] } :=
  (claim_C8 lgTwoChan attrsOne ⟨[-1], -1, []⟩ 0).1 (by with_unfolding_all decide)
    (by with_unfolding_all decide)

/-! ## C1 — the final filter of `group_n_groups` -/

/-- Invariant of the `unique_groups`/`return_groups` accumulation loop:
the collected subgroup sets are exactly those of the collected groups,
every collected group has `n` subgroups, and no subgroup set repeats. -/
theorem dedup_filter_invariant (n : ℕ) :
    ∀ (gs : List AnomalyGroup) (acc : List (Finset ℕ) × List AnomalyGroup),
      acc.1 = acc.2.map AnomalyGroup.subgroups →
      (∀ g ∈ acc.2, g.subgroups.card = n) →
      acc.1.Nodup →
      (gs.foldl
        (fun (acc : List (Finset ℕ) × List AnomalyGroup) g =>
          if g.subgroups.card = n ∧ g.subgroups ∉ acc.1 then
            (acc.1 ++ [g.subgroups], acc.2 ++ [g])
          else acc)
        acc).1 =
        ((gs.foldl
          (fun (acc : List (Finset ℕ) × List AnomalyGroup) g =>
            if g.subgroups.card = n ∧ g.subgroups ∉ acc.1 then
              (acc.1 ++ [g.subgroups], acc.2 ++ [g])
            else acc)
          acc).2).map AnomalyGroup.subgroups ∧
      (∀ g ∈ (gs.foldl
          (fun (acc : List (Finset ℕ) × List AnomalyGroup) g =>
            if g.subgroups.card = n ∧ g.subgroups ∉ acc.1 then
              (acc.1 ++ [g.subgroups], acc.2 ++ [g])
            else acc)
          acc).2, g.subgroups.card = n) ∧
      ((gs.foldl
        (fun (acc : List (Finset ℕ) × List AnomalyGroup) g =>
          if g.subgroups.card = n ∧ g.subgroups ∉ acc.1 then
            (acc.1 ++ [g.subgroups], acc.2 ++ [g])
          else acc)
        acc).1).Nodup := by
  intro gs
  induction gs with
  | nil => intro acc h1 h2 h3; exact ⟨h1, h2, h3⟩
  | cons g gs ih =>
    intro acc h1 h2 h3
    simp only [List.foldl_cons]
    by_cases hc : g.subgroups.card = n ∧ g.subgroups ∉ acc.1
    · rw [if_pos hc]
      refine ih _ ?_ ?_ ?_
      · simp [h1]
      · intro x hx
        rcases List.mem_append.mp hx with hx | hx
        · exact h2 x hx
        · rw [List.mem_singleton.mp hx]; exact hc.1
      · refine List.nodup_append.mpr ⟨h3, List.nodup_singleton _, ?_⟩
        intro a ha hb
        rw [List.mem_singleton] at hb
        subst hb
        exact hc.2 ha
    · rw [if_neg hc]; exact ih _ h1 h2 h3

/-- The two facts C1 needs about `dedup_filter`. -/
theorem dedup_filter_spec (n : ℕ) (gs : List AnomalyGroup) :
    (∀ g ∈ LineGroup.dedup_filter n gs, g.subgroups.card = n) ∧
    ((LineGroup.dedup_filter n gs).map AnomalyGroup.subgroups).Nodup := by
  have h := dedup_filter_invariant n gs ([], []) (by simp) (by simp) (by simp)
  refine ⟨h.2.1, ?_⟩
  have := h.2.2
  rwa [h.1] at this

/-- C1 (counterexample): the claim omits the defined-sampling premise.
With undefined sampling and `n_groups = 2`, `group_n_groups` returns the
input unchanged, and the returned group has one subgroup, not two. -/
theorem claim_C1_counterexample :
    lgNoSamp.n_groups = 2 ∧
    gA ∈ lgNoSamp.group_n_groups [gA] ∧ gA.subgroups.card ≠ 2 := by
  refine ⟨rfl, ?_, by decide⟩
  show gA ∈ [gA]
  simp

/-- C1 (amended): for every `LineGroup` with `n_groups > 1` *whose position
sampling is defined*, every group returned by `group_n_groups` has a
subgroups set of size exactly `n_groups`, and no two returned groups have
equal subgroups sets. -/
theorem claim_C1 (lg : LineGroup) (groups : List AnomalyGroup) (s : ℚ)
    (hs : lg.position.sampling = some s) (_hn : 1 < lg.n_groups) :
    (∀ g ∈ lg.group_n_groups groups, g.subgroups.card = lg.n_groups) ∧
    ((lg.group_n_groups groups).map AnomalyGroup.subgroups).Nodup := by
  unfold LineGroup.group_n_groups
  rw [hs]
  exact dedup_filter_spec lg.n_groups _

/-- C1 (witness). -/
theorem claim_C1_witness :
    (∀ g ∈ lgN2.group_n_groups [gA, gB], g.subgroups.card = lgN2.n_groups) ∧
    ((lgN2.group_n_groups [gA, gB]).map AnomalyGroup.subgroups).Nodup :=
  claim_C1 lgN2 [gA, gB] 1 rfl (by decide)

/-! ## Bounds of the bisection searches -/

/-- The bisection result never exceeds the upper bound. -/
theorem bisect_right_aux_le (a : List ℚ) (v : ℚ) :
    ∀ fuel lo hi, lo ≤ hi → bisect_right_aux a v fuel lo hi ≤ hi := by
  intro fuel
  induction fuel with
  | zero => intro lo hi h; exact h
  | succ fuel ih =>
    intro lo hi h
    unfold bisect_right_aux
    by_cases hlt : lo < hi
    · rw [if_pos hlt]
      by_cases hm : a.getD ((lo + hi) / 2) 0 ≤ v
      · rw [if_pos hm]
        exact ih _ _ (by omega)
      · rw [if_neg hm]
        exact le_trans (ih _ _ (by omega)) (by omega)
    · rw [if_neg hlt]; exact h

/-- The bisection result is at least the lower bound. -/
theorem le_bisect_left_aux (a : List ℚ) (v : ℚ) :
    ∀ fuel lo hi, lo ≤ bisect_left_aux a v fuel lo hi := by
  intro fuel
  induction fuel with
  | zero => intro lo hi; exact le_refl lo
  | succ fuel ih =>
    intro lo hi
    unfold bisect_left_aux
    by_cases hlt : lo < hi
    · rw [if_pos hlt]
      by_cases hm : a.getD ((lo + hi) / 2) 0 < v
      · rw [if_pos hm]
        calc lo ≤ (lo + hi) / 2 + 1 := by omega
        _ ≤ _ := ih _ _
      · rw [if_neg hm]; exact ih _ _
    · rw [if_neg hlt]

/-- `searchsorted_right` never exceeds the array length, so every index of
the candidate partner range is a valid index of the sorted group list. -/
theorem mem_in_range_lt_length (lg : LineGroup) (s : ℚ)
    (sorted_groups : List AnomalyGroup) (g : AnomalyGroup) (i : ℕ)
    (hi : i ∈ lg.in_range_of s sorted_groups g) :
    i < sorted_groups.length := by
  unfold LineGroup.in_range_of at hi
  rw [List.mem_range'] at hi
  have hle : bisect_right_aux (sorted_groups.map (fun h => ((h.start : ℕ) : ℚ)))
      ((g.end_ : ℚ) + lg.max_separation / s)
      (sorted_groups.map (fun h => ((h.start : ℕ) : ℚ))).length 0
      (sorted_groups.map (fun h => ((h.start : ℕ) : ℚ))).length ≤
      (sorted_groups.map (fun h => ((h.start : ℕ) : ℚ))).length :=
    bisect_right_aux_le _ _ _ _ _ (Nat.zero_le _)
  simp only [List.length_map] at hle
  unfold searchsorted_right at hi
  simp only [List.length_map] at hi
  omega

/-! ## C5 — shape of every synthesized composite -/

/-- C5: every composite synthesized inside `group_n_groups` comes from two
operands of the sorted working list whose subgroups sets are disjoint
(intersecting pairs are skipped); its `subgroups` is the union of the
operands' and has size at most `n_groups`, and its `anomalies`,
`full_azimuth` and `full_peak_values` are the concatenations of the
operands' fields. -/
theorem claim_C5 (lg : LineGroup) (s : ℚ) (groups : List AnomalyGroup)
    (c : AnomalyGroup) (hc : c ∈ lg.new_composites s groups) :
    ∃ g ∈ sort_by_start groups, ∃ i < (sort_by_start groups).length,
      ((sort_by_start groups).getD i default).subgroups ∩ g.subgroups = ∅ ∧
      c.subgroups =
        g.subgroups ∪ ((sort_by_start groups).getD i default).subgroups ∧
      c.subgroups.card ≤ lg.n_groups ∧
      c.anomalies =
        g.anomalies ++ ((sort_by_start groups).getD i default).anomalies ∧
      c.full_azimuth =
        g.full_azimuth ++
          ((sort_by_start groups).getD i default).full_azimuth ∧
      c.full_peak_values =
        g.full_peak_values ++
          ((sort_by_start groups).getD i default).full_peak_values := by
  unfold LineGroup.new_composites at hc
  rcases List.mem_flatMap.mp hc with ⟨g, hg, hcand⟩
  unfold LineGroup.merge_candidates at hcand
  rcases List.mem_filterMap.mp hcand with ⟨i, hin, hsome⟩
  refine ⟨g, hg, i, mem_in_range_lt_length lg s _ g i hin, ?_⟩
  set gi := (sort_by_start groups).getD i default with hgi
  by_cases hint : gi.subgroups ∩ g.subgroups ≠ ∅
  · rw [if_pos hint] at hsome
    exact absurd hsome (by simp)
  · rw [if_neg hint] at hsome
    push_neg at hint
    by_cases hcard : gi.subgroups.card + g.subgroups.card ≤ lg.n_groups
    · rw [if_pos hcard] at hsome
      have hceq : c = LineGroup.mk_merged g gi := (Option.some_injective _ hsome).symm
      have hdisj : Disjoint g.subgroups gi.subgroups := by
        rw [Finset.disjoint_iff_inter_eq_empty, Finset.inter_comm]
        exact hint
      subst hceq
      refine ⟨hint, rfl, ?_, rfl, rfl, rfl⟩
      show (g.subgroups ∪ gi.subgroups).card ≤ lg.n_groups
      rw [Finset.card_union_of_disjoint hdisj]
      omega
    · rw [if_neg hcard] at hsome
      exact absurd hsome (by simp)

set_option maxRecDepth 100000 in
/-- C5 (witness): the composite of `gA` and `gB` is synthesized with the
stated shape. -/
theorem claim_C5_witness :
    ∃ g ∈ sort_by_start [gA, gB], ∃ i < (sort_by_start [gA, gB]).length,
      ((sort_by_start [gA, gB]).getD i default).subgroups ∩ g.subgroups = ∅ ∧
      (LineGroup.mk_merged gA gB).subgroups =
        g.subgroups ∪ ((sort_by_start [gA, gB]).getD i default).subgroups ∧
      (LineGroup.mk_merged gA gB).subgroups.card ≤ lgN2.n_groups ∧
      (LineGroup.mk_merged gA gB).anomalies =
        g.anomalies ++ ((sort_by_start [gA, gB]).getD i default).anomalies ∧
      (LineGroup.mk_merged gA gB).full_azimuth =
        g.full_azimuth ++
          ((sort_by_start [gA, gB]).getD i default).full_azimuth ∧
      (LineGroup.mk_merged gA gB).full_peak_values =
        g.full_peak_values ++
          ((sort_by_start [gA, gB]).getD i default).full_peak_values :=
  claim_C5 lgN2 1 [gA, gB] (LineGroup.mk_merged gA gB)
    (by with_unfolding_all decide)

/-! ## C4 — iteration count of the growth loop -/

/-- Every group emitted by the clustering scan carries a singleton
subgroups set (its own fresh identity). -/
theorem scan_groups_card_one (lg : LineGroup)
    (attrs : List (Anomaly × ℕ × ℚ × ℚ)) :
    ∀ (l : List ℕ) (s : LineGroup.ScanState),
      (∀ g ∈ s.groups, g.subgroups.card = 1) →
      ∀ g ∈ (l.foldl (lg.scan_step attrs) s).groups, g.subgroups.card = 1 := by
  intro l
  induction l with
  | nil => intro s hs; exact hs
  | cons ind l ih =>
    intro s hs
    rw [List.foldl_cons]
    refine ih _ ?_
    unfold LineGroup.scan_step
    by_cases h1 : s.ids.getD ind (-1) ≠ -1
    · rw [if_pos h1]; exact hs
    · rw [if_neg h1]
      by_cases h2 :
          ((lg.get_near_peaks ind (attrs.map (fun t => t.2.1))
              (attrs.map (fun t => t.2.2.1))).map
            ((attrs.map (fun t => t.2.1)).getD · 0)).toFinset.card <
            lg.min_channels ∨
          lg.get_near_peaks ind (attrs.map (fun t => t.2.1))
            (attrs.map (fun t => t.2.2.1)) = []
      · rw [if_pos h2]; exact hs
      · rw [if_neg h2]
        intro g hg
        simp only [List.mem_append, List.mem_singleton] at hg
        rcases hg with hg | hg
        · exact hs g hg
        · subst hg; simp

/-- C4 (counterexample): the growth loop of `group_n_groups` is iterated
`n_groups` times, not `n_groups - 1`: on a concrete two-group input with
`n_groups = 2` the working list after the loop differs from the list after
only one pass, and `group_n_groups` is the final filter of the
`n_groups`-fold iterate. -/
theorem claim_C4_counterexample :
    lgN2.n_groups = 2 ∧
    (lgN2.merge_step 1)^[lgN2.n_groups] [gA, gB] ≠
      (lgN2.merge_step 1)^[lgN2.n_groups - 1] [gA, gB] ∧
    lgN2.group_n_groups [gA, gB] =
      LineGroup.dedup_filter lgN2.n_groups
        ((lgN2.merge_step 1)^[lgN2.n_groups] [gA, gB]) := by
  refine ⟨rfl, ?_, rfl⟩
  set_option maxRecDepth 100000 in with_unfolding_all decide

/-- C4 (amended): the growth loop body runs `n_groups` times (the source
iterates `for _ in range(self.n_groups)`); when `n_groups == 1`, `compute`
does not invoke `group_n_groups`, so no merging occurs and every returned
group is a base group standing alone (singleton subgroups set). -/
theorem claim_C4 (lg : LineGroup) (h : lg.n_groups = 1) :
    lg.compute = (lg.compute_scan).groups ∧
    ∀ g ∈ lg.compute, g.subgroups.card = 1 := by
  have hcomp : lg.compute = (lg.compute_scan).groups := by
    unfold LineGroup.compute
    rw [if_neg (by omega)]
  refine ⟨hcomp, ?_⟩
  rw [hcomp]
  unfold LineGroup.compute_scan
  exact scan_groups_card_one lg _ _ _ (by simp)

/-- C4 (witness). -/
theorem claim_C4_witness :
    lgSingle.compute = (lgSingle.compute_scan).groups ∧
    ∀ g ∈ lgSingle.compute, g.subgroups.card = 1 :=
  claim_C4 lgSingle rfl

/-! ## C6 — the gap-rejection step -/

/-- `find_cutoff` returns `none` exactly when no consecutive gap of the
sorted channel list exceeds `2`. -/
theorem find_cutoff_none_iff (l : List ℕ) :
    LineGroup.find_cutoff l = none ↔
      ∀ i, i + 1 < l.length → l.getD (i + 1) 0 - l.getD i 0 ≤ 2 := by
  induction l with
  | nil => simp [LineGroup.find_cutoff]
  | cons a t ih =>
    cases t with
    | nil =>
      simp only [LineGroup.find_cutoff, List.length_singleton]
      constructor
      · intro _ i hi
        omega
      · intro _
        trivial
    | cons b rest =>
      simp only [LineGroup.find_cutoff]
      by_cases hgap : 2 < b - a
      · rw [if_pos hgap]
        constructor
        · intro h
          exact absurd h (by simp)
        · intro h
          have h0 := h 0 (by simp)
          simp only [List.getD_cons_succ, List.getD_cons_zero] at h0
          omega
      · rw [if_neg hgap, ih]
        constructor
        · intro h i hi
          cases i with
          | zero =>
            simp only [List.getD_cons_succ, List.getD_cons_zero]
            omega
          | succ i =>
            have := h i (by simp only [List.length_cons] at hi ⊢; omega)
            simpa using this
        · intro h i hi
          have := h (i + 1) (by simp only [List.length_cons] at hi ⊢; omega)
          simpa using this

/-- `find_cutoff` at the first gap: if position `i` carries the first
consecutive gap `> 2`, the cutoff is the value standing right before it. -/
theorem find_cutoff_some_of :
    ∀ (i : ℕ) (l : List ℕ), i + 1 < l.length →
      2 < l.getD (i + 1) 0 - l.getD i 0 →
      (∀ k, k < i → l.getD (k + 1) 0 - l.getD k 0 ≤ 2) →
      LineGroup.find_cutoff l = some (l.getD i 0) := by
  intro i
  induction i with
  | zero =>
    intro l h1 h2 _
    match l, h1 with
    | a :: b :: rest, _ =>
      simp only [List.getD_cons_succ, List.getD_cons_zero] at h2
      simp only [LineGroup.find_cutoff, if_pos h2, List.getD_cons_zero]
  | succ i ih =>
    intro l h1 h2 hleast
    match l, h1 with
    | a :: b :: rest, h1 =>
      have h0 := hleast 0 (by omega)
      simp only [List.getD_cons_succ, List.getD_cons_zero] at h0
      simp only [LineGroup.find_cutoff, if_neg (by omega : ¬2 < b - a),
        List.getD_cons_succ]
      refine ih (b :: rest) (by simp only [List.length_cons] at h1 ⊢; omega) ?_ ?_
      · simpa using h2
      · intro k hk
        have := hleast (k + 1) (by omega)
        simpa using this

/-- C6: in `get_near_peaks`, when the sorted distinct channel indices of
the near set have a first consecutive gap `> 2` at position `i`, the
gap-rejection step keeps exactly the members whose channel is at most the
channel before that gap; with no such gap it leaves the near set
unchanged. -/
theorem claim_C6 (full_channel near : List ℕ) :
    (∀ i,
      i + 1 < (LineGroup.sorted_unique (near.map (full_channel.getD · 0))).length →
      2 < (LineGroup.sorted_unique (near.map (full_channel.getD · 0))).getD (i + 1) 0 -
          (LineGroup.sorted_unique (near.map (full_channel.getD · 0))).getD i 0 →
      (∀ k, k < i →
        (LineGroup.sorted_unique (near.map (full_channel.getD · 0))).getD (k + 1) 0 -
            (LineGroup.sorted_unique (near.map (full_channel.getD · 0))).getD k 0 ≤ 2) →
      LineGroup.gap_trunc full_channel near =
        near.filter (fun j => full_channel.getD j 0 ≤
          (LineGroup.sorted_unique (near.map (full_channel.getD · 0))).getD i 0)) ∧
    ((∀ i,
      i + 1 < (LineGroup.sorted_unique (near.map (full_channel.getD · 0))).length →
      (LineGroup.sorted_unique (near.map (full_channel.getD · 0))).getD (i + 1) 0 -
          (LineGroup.sorted_unique (near.map (full_channel.getD · 0))).getD i 0 ≤ 2) →
      LineGroup.gap_trunc full_channel near = near) := by
  constructor
  · intro i h1 h2 hleast
    unfold LineGroup.gap_trunc
    rw [find_cutoff_some_of i _ h1 h2 hleast]
  · intro h
    unfold LineGroup.gap_trunc
    rw [(find_cutoff_none_iff _).mpr h]

/-- C6 (witness): channels `0` and `5` leave a gap `> 2`, so the near set
is truncated to the members on channel `≤ 0`. -/
theorem claim_C6_witness :
    LineGroup.gap_trunc [0, 5] [0, 1] =
      List.filter (fun j => ([0, 5] : List ℕ).getD j 0 ≤
        (LineGroup.sorted_unique ([0, 1].map (([0, 5] : List ℕ).getD · 0))).getD 0 0)
        [0, 1] :=
  (claim_C6 [0, 5] [0, 1]).1 0 (by decide) (by decide)
    (fun k hk => absurd hk (Nat.not_lt_zero k))

/-! ## C3 and C10 — properties of `get_near_peaks` -/

/-- Membership in the raw near set. -/
theorem mem_near_within_iff (max_migration : ℚ) (peaks_position : List ℚ)
    (ind j : ℕ) :
    j ∈ LineGroup.near_within max_migration peaks_position ind ↔
      j < peaks_position.length ∧
        LineGroup.dist_to peaks_position ind j < max_migration := by
  simp [LineGroup.near_within, List.mem_filter, List.mem_range]

/-- `gap_trunc` when a cutoff is found. -/
theorem gap_trunc_eq_of_some (full_channel near : List ℕ) (cutoff : ℕ)
    (h : LineGroup.find_cutoff
      (LineGroup.sorted_unique (near.map (full_channel.getD · 0))) =
        some cutoff) :
    LineGroup.gap_trunc full_channel near =
      near.filter (fun j => full_channel.getD j 0 ≤ cutoff) := by
  unfold LineGroup.gap_trunc
  rw [h]

/-- `gap_trunc` when no cutoff is found. -/
theorem gap_trunc_eq_of_none (full_channel near : List ℕ)
    (h : LineGroup.find_cutoff
      (LineGroup.sorted_unique (near.map (full_channel.getD · 0))) = none) :
    LineGroup.gap_trunc full_channel near = near := by
  unfold LineGroup.gap_trunc
  rw [h]

/-- The gap-rejection step only removes members. -/
theorem gap_trunc_subset (full_channel near : List ℕ) :
    LineGroup.gap_trunc full_channel near ⊆ near := by
  cases h : LineGroup.find_cutoff
    (LineGroup.sorted_unique (near.map (full_channel.getD · 0))) with
  | none =>
    rw [gap_trunc_eq_of_none full_channel near h]
    exact fun x hx => hx
  | some cutoff =>
    rw [gap_trunc_eq_of_some full_channel near cutoff h]
    exact fun x hx => (List.mem_filter.mp hx).1

/-- The gap-rejection step removes members only by channel: a member
sharing its channel with a surviving member also survives. -/
theorem mem_gap_trunc_of_channel_eq (full_channel near : List ℕ) (j k : ℕ)
    (hj : j ∈ LineGroup.gap_trunc full_channel near) (hk : k ∈ near)
    (hch : full_channel.getD k 0 = full_channel.getD j 0) :
    k ∈ LineGroup.gap_trunc full_channel near := by
  cases h : LineGroup.find_cutoff
    (LineGroup.sorted_unique (near.map (full_channel.getD · 0))) with
  | none => rw [gap_trunc_eq_of_none full_channel near h]; exact hk
  | some cutoff =>
    rw [gap_trunc_eq_of_some full_channel near cutoff h] at hj ⊢
    rw [List.mem_filter] at hj ⊢
    refine ⟨hk, ?_⟩
    rw [decide_eq_true_iff] at hj ⊢
    omega

/-- `keep_nearest` when the channel has a nearest member. -/
theorem keep_nearest_eq_of_some (full_channel : List ℕ)
    (peaks_position : List ℚ) (ind : ℕ) (near : List ℕ) (gate j0 : ℕ)
    (h : LineGroup.nearest_in full_channel peaks_position ind near gate =
      some j0) :
    LineGroup.keep_nearest full_channel peaks_position ind near gate =
      near.filter (fun j => full_channel.getD j 0 ≠ gate ∨ j = j0) := by
  unfold LineGroup.keep_nearest
  rw [h]

/-- `keep_nearest` when the channel has no member. -/
theorem keep_nearest_eq_of_none (full_channel : List ℕ)
    (peaks_position : List ℚ) (ind : ℕ) (near : List ℕ) (gate : ℕ)
    (h : LineGroup.nearest_in full_channel peaks_position ind near gate =
      none) :
    LineGroup.keep_nearest full_channel peaks_position ind near gate =
      near := by
  unfold LineGroup.keep_nearest
  rw [h]

/-- The duplicate-resolution pass only removes members. -/
theorem keep_nearest_subset (full_channel : List ℕ) (peaks_position : List ℚ)
    (ind : ℕ) (near : List ℕ) (gate : ℕ) :
    LineGroup.keep_nearest full_channel peaks_position ind near gate ⊆
      near := by
  cases h : LineGroup.nearest_in full_channel peaks_position ind near gate with
  | none =>
    rw [keep_nearest_eq_of_none _ _ _ _ _ h]
    exact fun x hx => hx
  | some j0 =>
    rw [keep_nearest_eq_of_some _ _ _ _ _ _ h]
    exact fun x hx => (List.mem_filter.mp hx).1

/-- The duplicate-resolution pass for one channel leaves members of other
channels untouched. -/
theorem mem_keep_nearest_of_ne (full_channel : List ℕ)
    (peaks_position : List ℚ) (ind : ℕ) (near : List ℕ) (gate j : ℕ)
    (hne : full_channel.getD j 0 ≠ gate) :
    j ∈ LineGroup.keep_nearest full_channel peaks_position ind near gate ↔
      j ∈ near := by
  cases h : LineGroup.nearest_in full_channel peaks_position ind near gate with
  | none => rw [keep_nearest_eq_of_none _ _ _ _ _ h]
  | some j0 =>
    rw [keep_nearest_eq_of_some _ _ _ _ _ _ h, List.mem_filter]
    constructor
    · exact fun hmem => hmem.1
    · intro hmem
      refine ⟨hmem, ?_⟩
      rw [decide_eq_true_iff]
      exact Or.inl hne

/-- Invariant of `nearest_in`'s fold: a `some` result is drawn from the
list or the accumulator, lies on the channel, and minimises the distance
over both. -/
theorem nearest_in_go (full_channel : List ℕ) (peaks_position : List ℚ)
    (ind gate : ℕ) :
    ∀ (l : List ℕ) (acc : Option ℕ),
      (∀ k, acc = some k → full_channel.getD k 0 = gate) →
      ∀ res,
        l.foldl
          (fun acc j =>
            if full_channel.getD j 0 = gate then
              match acc with
              | none => some j
              | some k =>
                if LineGroup.dist_to peaks_position ind j <
                    LineGroup.dist_to peaks_position ind k then
                  some j
                else some k
            else acc)
          acc = some res →
        (res ∈ l ∨ acc = some res) ∧ full_channel.getD res 0 = gate ∧
          (∀ j ∈ l, full_channel.getD j 0 = gate →
            LineGroup.dist_to peaks_position ind res ≤
              LineGroup.dist_to peaks_position ind j) ∧
          (∀ k, acc = some k →
            LineGroup.dist_to peaks_position ind res ≤
              LineGroup.dist_to peaks_position ind k) := by
  intro l
  induction l with
  | nil =>
    intro acc hacc res hres
    rw [List.foldl_nil] at hres
    refine ⟨Or.inr hres, hacc res hres, by simp, ?_⟩
    intro k hk
    rw [hres] at hk
    rw [Option.some_inj.mp hk]
  | cons j l ih =>
    intro acc hacc res hres
    rw [List.foldl_cons] at hres
    by_cases hj : full_channel.getD j 0 = gate
    · rw [if_pos hj] at hres
      cases acc with
      | none =>
        have hspec : ∀ x : ℕ, some j = some x → full_channel.getD x 0 = gate :=
          fun x hx => Option.some_inj.mp hx ▸ hj
        obtain ⟨hmem, hgate, hminl, hminacc⟩ := ih (some j) hspec res hres
        refine ⟨?_, hgate, ?_, ?_⟩
        · rcases hmem with h | h
          · exact Or.inl (List.mem_cons_of_mem _ h)
          · exact Or.inl (Option.some_inj.mp h ▸ List.mem_cons_self j l)
        · intro x hx hgx
          rcases List.mem_cons.mp hx with rfl | hx
          · exact hminacc x rfl
          · exact hminl x hx hgx
        · intro k hk
          exact absurd hk (by simp)
      | some k =>
        have hkg : full_channel.getD k 0 = gate := hacc k rfl
        have hres2 :
            l.foldl
              (fun acc j =>
                if full_channel.getD j 0 = gate then
                  match acc with
                  | none => some j
                  | some k =>
                    if LineGroup.dist_to peaks_position ind j <
                        LineGroup.dist_to peaks_position ind k then
                      some j
                    else some k
                else acc)
              (if LineGroup.dist_to peaks_position ind j <
                  LineGroup.dist_to peaks_position ind k then some j
                else some k) = some res := hres
        by_cases hdist : LineGroup.dist_to peaks_position ind j <
            LineGroup.dist_to peaks_position ind k
        · rw [if_pos hdist] at hres2
          have hspec : ∀ x : ℕ, some j = some x →
              full_channel.getD x 0 = gate :=
            fun x hx => Option.some_inj.mp hx ▸ hj
          obtain ⟨hmem, hgate, hminl, hminacc⟩ := ih (some j) hspec res hres2
          refine ⟨?_, hgate, ?_, ?_⟩
          · rcases hmem with h | h
            · exact Or.inl (List.mem_cons_of_mem _ h)
            · exact Or.inl (Option.some_inj.mp h ▸ List.mem_cons_self j l)
          · intro x hx hgx
            rcases List.mem_cons.mp hx with rfl | hx
            · exact hminacc x rfl
            · exact hminl x hx hgx
          · intro x hx
            rw [← Option.some_inj.mp hx]
            exact le_trans (hminacc j rfl) (le_of_lt hdist)
        · rw [if_neg hdist] at hres2
          have hspec : ∀ x : ℕ, some k = some x →
              full_channel.getD x 0 = gate :=
            fun x hx => Option.some_inj.mp hx ▸ hkg
          obtain ⟨hmem, hgate, hminl, hminacc⟩ := ih (some k) hspec res hres2
          refine ⟨?_, hgate, ?_, ?_⟩
          · rcases hmem with h | h
            · exact Or.inl (List.mem_cons_of_mem _ h)
            · exact Or.inr h
          · intro x hx hgx
            rcases List.mem_cons.mp hx with rfl | hx
            · exact le_trans (hminacc k rfl) (le_of_not_lt hdist)
            · exact hminl x hx hgx
          · intro x hx
            rw [← Option.some_inj.mp hx]
            exact hminacc k rfl
    · rw [if_neg hj] at hres
      obtain ⟨hmem, hgate, hminl, hminacc⟩ := ih acc hacc res hres
      refine ⟨?_, hgate, ?_, hminacc⟩
      · rcases hmem with h | h
        · exact Or.inl (List.mem_cons_of_mem _ h)
        · exact Or.inr h
      · intro x hx hgx
        rcases List.mem_cons.mp hx with rfl | hx
        · exact absurd hgx hj
        · exact hminl x hx hgx

/-- Specification of `nearest_in`: a `some` result is a member of the near
set on the requested channel, with minimal distance among that channel's
members. -/
theorem nearest_in_spec (full_channel : List ℕ) (peaks_position : List ℚ)
    (ind : ℕ) (near : List ℕ) (gate j0 : ℕ)
    (h : LineGroup.nearest_in full_channel peaks_position ind near gate =
      some j0) :
    j0 ∈ near ∧ full_channel.getD j0 0 = gate ∧
      ∀ k ∈ near, full_channel.getD k 0 = gate →
        LineGroup.dist_to peaks_position ind j0 ≤
          LineGroup.dist_to peaks_position ind k := by
  unfold LineGroup.nearest_in at h
  obtain ⟨hmem, hgate, hminl, _⟩ :=
    nearest_in_go full_channel peaks_position ind gate near none
      (fun k hk => absurd hk (by simp)) j0 h
  refine ⟨?_, hgate, hminl⟩
  rcases hmem with h | h
  · exact h
  · exact absurd h (by simp)

/-- If the channel has a member in the near set, `nearest_in` does not
return `none`. -/
theorem nearest_in_ne_none (full_channel : List ℕ) (peaks_position : List ℚ)
    (ind gate : ℕ) :
    ∀ (l : List ℕ) (acc : Option ℕ),
      (acc ≠ none ∨ ∃ j ∈ l, full_channel.getD j 0 = gate) →
      l.foldl
        (fun acc j =>
          if full_channel.getD j 0 = gate then
            match acc with
            | none => some j
            | some k =>
              if LineGroup.dist_to peaks_position ind j <
                  LineGroup.dist_to peaks_position ind k then
                some j
              else some k
          else acc)
        acc ≠ none := by
  intro l
  induction l with
  | nil =>
    intro acc hacc
    rw [List.foldl_nil]
    rcases hacc with h | h
    · exact h
    · rcases h with ⟨j, hj, _⟩
      exact absurd hj (List.not_mem_nil j)
  | cons j l ih =>
    intro acc hacc
    rw [List.foldl_cons]
    by_cases hj : full_channel.getD j 0 = gate
    · rw [if_pos hj]
      refine ih _ (Or.inl ?_)
      cases acc with
      | none => simp
      | some k =>
        by_cases hd : LineGroup.dist_to peaks_position ind j <
            LineGroup.dist_to peaks_position ind k
        · simp [hd]
        · simp [hd]
    · rw [if_neg hj]
      refine ih _ ?_
      rcases hacc with h | h
      · exact Or.inl h
      · rcases h with ⟨x, hx, hgx⟩
        rcases List.mem_cons.mp hx with rfl | hx
        · exact absurd hgx hj
        · exact Or.inr ⟨x, hx, hgx⟩

/-- A channel member forces `nearest_in` to succeed. -/
theorem nearest_in_isSome_of_mem (full_channel : List ℕ)
    (peaks_position : List ℚ) (ind : ℕ) (near : List ℕ) (gate j : ℕ)
    (hj : j ∈ near) (hch : full_channel.getD j 0 = gate) :
    ∃ j0, LineGroup.nearest_in full_channel peaks_position ind near gate =
      some j0 := by
  have h := nearest_in_ne_none full_channel peaks_position ind gate near none
    (Or.inr ⟨j, hj, hch⟩)
  unfold LineGroup.nearest_in
  cases hres : near.foldl
      (fun acc j =>
        if full_channel.getD j 0 = gate then
          match acc with
          | none => some j
          | some k =>
            if LineGroup.dist_to peaks_position ind j <
                LineGroup.dist_to peaks_position ind k then
              some j
            else some k
        else acc)
      none with
  | none => exact absurd hres h
  | some j0 => exact ⟨j0, rfl⟩

/-- The whole duplicate-resolution fold only removes members. -/
theorem foldl_keep_nearest_subset (full_channel : List ℕ)
    (peaks_position : List ℚ) (ind : ℕ) :
    ∀ (gates near : List ℕ),
      gates.foldl (LineGroup.keep_nearest full_channel peaks_position ind)
        near ⊆ near := by
  intro gates
  induction gates with
  | nil => intro near x hx; exact hx
  | cons g gates ih =>
    intro near
    rw [List.foldl_cons]
    exact fun x hx =>
      keep_nearest_subset full_channel peaks_position ind near g (ih _ hx)

/-- The duplicate-resolution fold does not touch members whose channel is
not among the processed gates. -/
theorem mem_foldl_keep_nearest_of_ne (full_channel : List ℕ)
    (peaks_position : List ℚ) (ind : ℕ) :
    ∀ (gates near : List ℕ) (j : ℕ),
      (∀ g ∈ gates, full_channel.getD j 0 ≠ g) →
      (j ∈ gates.foldl (LineGroup.keep_nearest full_channel peaks_position ind)
          near ↔ j ∈ near) := by
  intro gates
  induction gates with
  | nil => intro near j _; exact Iff.rfl
  | cons g gates ih =>
    intro near j hne
    rw [List.foldl_cons,
      ih _ j (fun x hx => hne x (List.mem_cons_of_mem _ hx)),
      mem_keep_nearest_of_ne full_channel peaks_position ind near g j
        (hne g (List.mem_cons_self g gates))]

/-- `get_near_peaks`, with its let-bindings spelled out. -/
theorem get_near_peaks_eq (lg : LineGroup) (ind : ℕ) (full_channel : List ℕ)
    (peaks_position : List ℚ) :
    lg.get_near_peaks ind full_channel peaks_position =
      ((LineGroup.sorted_unique
          ((LineGroup.gap_trunc full_channel
            (LineGroup.near_within lg.max_migration peaks_position ind)).map
              (full_channel.getD · 0))).filter
        (fun g => 1 <
          ((LineGroup.gap_trunc full_channel
            (LineGroup.near_within lg.max_migration peaks_position ind)).map
              (full_channel.getD · 0)).count g)).foldl
        (LineGroup.keep_nearest full_channel peaks_position ind)
        (LineGroup.gap_trunc full_channel
          (LineGroup.near_within lg.max_migration peaks_position ind)) :=
  rfl

/-- Two members of a length-`≤ 1` list are equal. -/
theorem length_le_one_mem_eq {α : Type} (l : List α) (h : l.length ≤ 1)
    (a b : α) (ha : a ∈ l) (hb : b ∈ l) : a = b := by
  match l with
  | [] => exact absurd ha (List.not_mem_nil a)
  | [x] => rw [List.mem_singleton.mp ha, List.mem_singleton.mp hb]
  | x :: y :: t => simp at h

/-- Occurrence counts of a mapped value, as a filter length. -/
theorem count_map_eq_length_filter (f : ℕ → ℕ) (g : ℕ) (l : List ℕ) :
    (l.map f).count g = (l.filter (fun x => f x = g)).length := by
  induction l with
  | nil => simp
  | cons a l ih =>
    simp only [List.map_cons, List.count_cons, List.filter_cons]
    by_cases h : f a = g
    · simp [h, ih]
    · simp [h, ih]

/-- C3: every index returned by `get_near_peaks` lies strictly within
`max_migration` of the seed's peak position; the returned set holds at most
one index per channel; and the kept index of each channel minimises the
distance to the seed's peak among all within-range anomalies of that
channel. -/
theorem claim_C3 (lg : LineGroup) (ind : ℕ) (full_channel : List ℕ)
    (peaks_position : List ℚ) (j : ℕ)
    (hj : j ∈ lg.get_near_peaks ind full_channel peaks_position) :
    LineGroup.dist_to peaks_position ind j < lg.max_migration ∧
    (∀ k ∈ lg.get_near_peaks ind full_channel peaks_position,
      full_channel.getD k 0 = full_channel.getD j 0 → k = j) ∧
    (∀ k ∈ LineGroup.near_within lg.max_migration peaks_position ind,
      full_channel.getD k 0 = full_channel.getD j 0 →
        LineGroup.dist_to peaks_position ind j ≤
          LineGroup.dist_to peaks_position ind k) := by
  rw [get_near_peaks_eq] at hj
  set near0 := LineGroup.near_within lg.max_migration peaks_position ind
    with hnear0def
  set near1 := LineGroup.gap_trunc full_channel near0 with hnear1def
  set chs := near1.map (full_channel.getD · 0) with hchsdef
  set gates := (LineGroup.sorted_unique chs).filter
    (fun g => 1 < chs.count g) with hgatesdef
  have hj1 : j ∈ near1 :=
    foldl_keep_nearest_subset full_channel peaks_position ind gates near1 hj
  have hj0 : j ∈ near0 := gap_trunc_subset full_channel near0 hj1
  have hdist : LineGroup.dist_to peaks_position ind j < lg.max_migration :=
    ((mem_near_within_iff lg.max_migration peaks_position ind j).mp hj0).2
  refine ⟨hdist, ?_⟩
  rw [get_near_peaks_eq]
  by_cases hgmem : full_channel.getD j 0 ∈ gates
  · obtain ⟨l₁, l₂, hsplit⟩ := List.append_of_mem hgmem
    have hgatesnodup : gates.Nodup :=
      (List.nodup_dedup _).filter _
    have hgnotin : full_channel.getD j 0 ∉ l₁ := by
      rw [hsplit] at hgatesnodup
      exact fun hm =>
        (List.nodup_append.mp hgatesnodup).2.2 hm
          (List.mem_cons_self _ _)
    have hres_sub : gates.foldl
        (LineGroup.keep_nearest full_channel peaks_position ind) near1 ⊆
        LineGroup.keep_nearest full_channel peaks_position ind
          (l₁.foldl (LineGroup.keep_nearest full_channel peaks_position ind)
            near1)
          (full_channel.getD j 0) := by
      rw [hsplit, List.foldl_append, List.foldl_cons]
      exact foldl_keep_nearest_subset full_channel peaks_position ind l₂ _
    have hcur_iff : ∀ x, full_channel.getD x 0 = full_channel.getD j 0 →
        (x ∈ l₁.foldl (LineGroup.keep_nearest full_channel peaks_position ind)
            near1 ↔ x ∈ near1) := by
      intro x hx
      refine mem_foldl_keep_nearest_of_ne full_channel peaks_position ind l₁
        near1 x ?_
      intro y hy he
      rw [hx] at he
      exact hgnotin (he ▸ hy)
    have hjcur : j ∈ LineGroup.keep_nearest full_channel peaks_position ind
        (l₁.foldl (LineGroup.keep_nearest full_channel peaks_position ind)
          near1)
        (full_channel.getD j 0) := hres_sub hj
    have hjincur : j ∈ l₁.foldl
        (LineGroup.keep_nearest full_channel peaks_position ind) near1 :=
      keep_nearest_subset full_channel peaks_position ind _ _ hjcur
    obtain ⟨j0, hj0some⟩ := nearest_in_isSome_of_mem full_channel
      peaks_position ind _ (full_channel.getD j 0) j hjincur rfl
    have hjeq : j = j0 := by
      rw [keep_nearest_eq_of_some _ _ _ _ _ _ hj0some] at hjcur
      have hp := (List.mem_filter.mp hjcur).2
      rw [decide_eq_true_iff] at hp
      rcases hp with hp | hp
      · exact absurd rfl hp
      · exact hp
    obtain ⟨hj0mem, hj0gate, hj0min⟩ :=
      nearest_in_spec full_channel peaks_position ind _ _ _ hj0some
    constructor
    · intro k hk hkch
      have hkkeep := hres_sub hk
      rw [keep_nearest_eq_of_some _ _ _ _ _ _ hj0some] at hkkeep
      have hp := (List.mem_filter.mp hkkeep).2
      rw [decide_eq_true_iff] at hp
      rcases hp with hp | hp
      · exact absurd hkch hp
      · rw [hp, ← hjeq]
    · intro k hk0 hkch
      have hk1 : k ∈ near1 :=
        mem_gap_trunc_of_channel_eq full_channel near0 j k hj1 hk0 hkch
      have hkcur : k ∈ l₁.foldl
          (LineGroup.keep_nearest full_channel peaks_position ind) near1 :=
        (hcur_iff k hkch).mpr hk1
      rw [hjeq]
      exact hj0min k hkcur hkch
  · have hgu : full_channel.getD j 0 ∈ LineGroup.sorted_unique chs := by
      unfold LineGroup.sorted_unique
      rw [List.mem_dedup]
      exact (List.perm_insertionSort _ chs).mem_iff.mpr
        (List.mem_map.mpr ⟨j, hj1, rfl⟩)
    have hcnt : ¬1 < chs.count (full_channel.getD j 0) := by
      intro h
      exact hgmem (List.mem_filter.mpr ⟨hgu, by simpa using h⟩)
    have hlen : (near1.filter
        (fun x => full_channel.getD x 0 = full_channel.getD j 0)).length ≤
        1 := by
      have := count_map_eq_length_filter (full_channel.getD · 0)
        (full_channel.getD j 0) near1
      rw [hchsdef] at hcnt
      omega
    have hjf : j ∈ near1.filter
        (fun x => full_channel.getD x 0 = full_channel.getD j 0) :=
      List.mem_filter.mpr ⟨hj1, by simp⟩
    constructor
    · intro k hk hkch
      have hk1 : k ∈ near1 :=
        foldl_keep_nearest_subset full_channel peaks_position ind gates near1
          hk
      have hkf : k ∈ near1.filter
          (fun x => full_channel.getD x 0 = full_channel.getD j 0) :=
        List.mem_filter.mpr ⟨hk1, by rw [decide_eq_true_iff]; exact hkch⟩
      exact length_le_one_mem_eq _ hlen k j hkf hjf
    · intro k hk0 hkch
      have hk1 : k ∈ near1 :=
        mem_gap_trunc_of_channel_eq full_channel near0 j k hj1 hk0 hkch
      have hkf : k ∈ near1.filter
          (fun x => full_channel.getD x 0 = full_channel.getD j 0) :=
        List.mem_filter.mpr ⟨hk1, by rw [decide_eq_true_iff]; exact hkch⟩
      rw [length_le_one_mem_eq _ hlen j k hjf hkf]

set_option maxRecDepth 100000 in
/-- C3 (witness): with two channel-1 anomalies in range of seed `0`, the
returned index `1` is within range, unique for its channel, and nearest. -/
theorem claim_C3_witness :
    LineGroup.dist_to [0, 1, 1] 0 1 < lgMig.max_migration ∧
    (∀ k ∈ lgMig.get_near_peaks 0 [0, 1, 1] [0, 1, 1],
      ([0, 1, 1] : List ℕ).getD k 0 = ([0, 1, 1] : List ℕ).getD 1 0 →
        k = 1) ∧
    (∀ k ∈ LineGroup.near_within lgMig.max_migration [0, 1, 1] 0,
      ([0, 1, 1] : List ℕ).getD k 0 = ([0, 1, 1] : List ℕ).getD 1 0 →
        LineGroup.dist_to [0, 1, 1] 0 1 ≤ LineGroup.dist_to [0, 1, 1] 0 k) :=
  claim_C3 lgMig 0 [0, 1, 1] [0, 1, 1] 1 (by with_unfolding_all decide)

/-- C10: with `max_migration > 0` the seed index belongs to the raw near
set; if the gap-truncation step keeps it and no other anomaly on its
channel sits at exactly its peak position, it is also contained in the
returned array.  Without these conditions the seed can be excluded: with
two same-channel anomalies at one position, seed `1` is dropped in favour
of the earlier index `0`. -/
theorem claim_C10 (lg : LineGroup) (ind : ℕ) (full_channel : List ℕ)
    (peaks_position : List ℚ) (hmm : 0 < lg.max_migration)
    (hlen : ind < peaks_position.length)
    (htrunc : ind ∈ LineGroup.gap_trunc full_channel
      (LineGroup.near_within lg.max_migration peaks_position ind))
    (huniq : ∀ j, j < peaks_position.length → j ≠ ind →
      full_channel.getD j 0 = full_channel.getD ind 0 →
      peaks_position.getD j 0 ≠ peaks_position.getD ind 0) :
    ind ∈ LineGroup.near_within lg.max_migration peaks_position ind ∧
    ind ∈ lg.get_near_peaks ind full_channel peaks_position ∧
    1 ∉ lgMig1.get_near_peaks 1 [0, 0] [5, 5] := by
  have hd0 : LineGroup.dist_to peaks_position ind ind = 0 := by
    unfold LineGroup.dist_to
    simp
  have hmem0 : ind ∈ LineGroup.near_within lg.max_migration peaks_position
      ind :=
    (mem_near_within_iff _ _ _ _).mpr ⟨hlen, by rw [hd0]; exact hmm⟩
  refine ⟨hmem0, ?_, by set_option maxRecDepth 100000 in with_unfolding_all decide⟩
  have hkey : ∀ (gates near : List ℕ), ind ∈ near →
      near ⊆ LineGroup.near_within lg.max_migration peaks_position ind →
      ind ∈ gates.foldl
        (LineGroup.keep_nearest full_channel peaks_position ind) near := by
    intro gates
    induction gates with
    | nil => intro near h _; exact h
    | cons g gs ih =>
      intro near hind hsub
      rw [List.foldl_cons]
      refine ih _ ?_
        (fun x hx =>
          hsub (keep_nearest_subset full_channel peaks_position ind near g hx))
      by_cases hg : full_channel.getD ind 0 = g
      · obtain ⟨j0, hsome⟩ := nearest_in_isSome_of_mem full_channel
          peaks_position ind near g ind hind hg
        obtain ⟨hj0mem, hj0g, hj0min⟩ :=
          nearest_in_spec full_channel peaks_position ind near g j0 hsome
        have hle : LineGroup.dist_to peaks_position ind j0 ≤ 0 := by
          rw [← hd0]
          exact hj0min ind hind hg
        have hz : LineGroup.dist_to peaks_position ind j0 = 0 :=
          le_antisymm hle (abs_nonneg _)
        have hpp : peaks_position.getD j0 0 = peaks_position.getD ind 0 := by
          unfold LineGroup.dist_to at hz
          rw [abs_eq_zero, sub_eq_zero] at hz
          exact hz.symm
        have hj0ind : j0 = ind := by
          by_contra hne
          have hj0len : j0 < peaks_position.length :=
            ((mem_near_within_iff _ _ _ _).mp (hsub hj0mem)).1
          exact huniq j0 hj0len hne (hj0g.trans hg.symm) hpp
        rw [keep_nearest_eq_of_some _ _ _ _ _ _ hsome]
        refine List.mem_filter.mpr ⟨hind, ?_⟩
        rw [decide_eq_true_iff]
        exact Or.inr hj0ind.symm
      · exact (mem_keep_nearest_of_ne full_channel peaks_position ind near g
          ind hg).mpr hind
  rw [get_near_peaks_eq]
  exact hkey _ _ htrunc (gap_trunc_subset full_channel _)

set_option maxRecDepth 100000 in
/-- C10 (witness): a lone anomaly seeds itself. -/
theorem claim_C10_witness :
    0 ∈ LineGroup.near_within lgMig.max_migration [(0 : ℚ)] 0 ∧
    0 ∈ lgMig.get_near_peaks 0 [0] [(0 : ℚ)] ∧
    1 ∉ lgMig1.get_near_peaks 1 [0, 0] [5, 5] :=
  claim_C10 lgMig 0 [0] [(0 : ℚ)] (by with_unfolding_all decide)
    (by decide) (by with_unfolding_all decide)
    (fun j hj hne _ =>
      absurd (by simp only [List.length_singleton] at hj; omega : j = 0) hne)

/-! ## C2 — the candidate partner range -/

/-- `getD` into a mapped group list. -/
theorem getD_map_ag (f : AnomalyGroup → ℚ) (l : List AnomalyGroup) (i : ℕ)
    (hi : i < l.length) :
    (l.map f).getD i 0 = f (l.getD i default) := by
  rw [List.getD_eq_getElem?_getD, List.getD_eq_getElem?_getD,
    List.getElem?_map, List.getElem?_eq_getElem hi]
  simp

/-- A sorted rational list is monotone in `getD`. -/
theorem sorted_getD_mono (a : List ℚ) (h : List.Sorted (· ≤ ·) a) :
    ∀ i j, i ≤ j → j < a.length → a.getD i 0 ≤ a.getD j 0 := by
  intro i j hij hj
  rcases eq_or_lt_of_le hij with rfl | hlt
  · exact le_refl _
  · have hi : i < a.length := lt_trans hlt hj
    rw [List.getD_eq_getElem _ _ hi, List.getD_eq_getElem _ _ hj]
    exact h.rel_get_of_lt hlt

/-- In the left bisection on a monotone array, everything below the result
is `< v`. -/
theorem bisect_left_aux_lt (a : List ℚ) (v : ℚ)
    (mono : ∀ i j, i ≤ j → j < a.length → a.getD i 0 ≤ a.getD j 0) :
    ∀ fuel lo hi, hi ≤ a.length →
      (∀ x, x < lo → a.getD x 0 < v) →
      ∀ i, i < bisect_left_aux a v fuel lo hi → a.getD i 0 < v := by
  intro fuel
  induction fuel with
  | zero => intro lo hi _ hinv i hi2; exact hinv i hi2
  | succ fuel ih =>
    intro lo hi hlen hinv i hires
    unfold bisect_left_aux at hires
    by_cases hlt : lo < hi
    · rw [if_pos hlt] at hires
      by_cases hm : a.getD ((lo + hi) / 2) 0 < v
      · rw [if_pos hm] at hires
        refine ih ((lo + hi) / 2 + 1) hi hlen ?_ i hires
        intro x hx
        exact lt_of_le_of_lt (mono x ((lo + hi) / 2) (by omega) (by omega)) hm
      · rw [if_neg hm] at hires
        exact ih lo ((lo + hi) / 2) (by omega) hinv i hires
    · rw [if_neg hlt] at hires
      exact hinv i hires

/-- In the right bisection on a monotone array, everything from the result
on is `> v`. -/
theorem bisect_right_aux_gt (a : List ℚ) (v : ℚ)
    (mono : ∀ i j, i ≤ j → j < a.length → a.getD i 0 ≤ a.getD j 0) :
    ∀ fuel lo hi, hi ≤ a.length → hi - lo ≤ fuel →
      (∀ x, hi ≤ x → x < a.length → v < a.getD x 0) →
      ∀ i, bisect_right_aux a v fuel lo hi ≤ i → i < a.length →
        v < a.getD i 0 := by
  intro fuel
  induction fuel with
  | zero =>
    intro lo hi _ hfuel hinv i hle hilen
    unfold bisect_right_aux at hle
    exact hinv i (by omega) hilen
  | succ fuel ih =>
    intro lo hi hlen hfuel hinv i hle hilen
    unfold bisect_right_aux at hle
    by_cases hlt : lo < hi
    · rw [if_pos hlt] at hle
      by_cases hm : a.getD ((lo + hi) / 2) 0 ≤ v
      · rw [if_pos hm] at hle
        exact ih ((lo + hi) / 2 + 1) hi hlen (by omega) hinv i hle hilen
      · rw [if_neg hm] at hle
        refine ih lo ((lo + hi) / 2) (by omega) (by omega) ?_ i hle hilen
        intro x hx hxlen
        exact lt_of_lt_of_le (lt_of_not_le hm) (mono ((lo + hi) / 2) x hx hxlen)
    · rw [if_neg hlt] at hle
      exact hinv i (by omega) hilen

/-- C2 (amended): in each merge iteration, *provided the ends of the
start-sorted working list are themselves nondecreasing*, the candidate
partner range of a group `g` contains every index `i` of the sorted list
with `ends[i] ≥ g.start - delta` and `starts[i] ≤ g.end + delta`, with
`delta = max_separation / sampling`. -/
theorem claim_C2 (lg : LineGroup) (s : ℚ)
    (_hs : lg.position.sampling = some s) (groups : List AnomalyGroup)
    (g : AnomalyGroup) (_hg : g ∈ sort_by_start groups)
    (hends : List.Sorted (· ≤ ·)
      ((sort_by_start groups).map (fun h => (h.end_ : ℚ))))
    (i : ℕ) (hi : i < (sort_by_start groups).length)
    (h1 : (g.start : ℚ) - lg.max_separation / s ≤
      (((sort_by_start groups).getD i default).end_ : ℚ))
    (h2 : (((sort_by_start groups).getD i default).start : ℚ) ≤
      (g.end_ : ℚ) + lg.max_separation / s) :
    i ∈ lg.in_range_of s (sort_by_start groups) g := by
  have hstarts : List.Sorted (· ≤ ·)
      ((sort_by_start groups).map (fun h => (h.start : ℚ))) := by
    have hsorted : List.Sorted start_le (sort_by_start groups) :=
      List.sorted_insertionSort start_le groups
    exact List.Pairwise.map _
      (fun a b hab => by exact_mod_cast Nat.cast_le.mpr hab) hsorted
  show i ∈ List.range'
    (searchsorted_left ((sort_by_start groups).map (fun h => (h.end_ : ℚ)))
      ((g.start : ℚ) - lg.max_separation / s))
    (searchsorted_right ((sort_by_start groups).map (fun h => (h.start : ℚ)))
      ((g.end_ : ℚ) + lg.max_separation / s) -
      searchsorted_left ((sort_by_start groups).map (fun h => (h.end_ : ℚ)))
        ((g.start : ℚ) - lg.max_separation / s))
  have hlow : searchsorted_left
      ((sort_by_start groups).map (fun h => (h.end_ : ℚ)))
      ((g.start : ℚ) - lg.max_separation / s) ≤ i := by
    by_contra hcon
    push_neg at hcon
    have := bisect_left_aux_lt
      ((sort_by_start groups).map (fun h => (h.end_ : ℚ)))
      ((g.start : ℚ) - lg.max_separation / s)
      (sorted_getD_mono _ hends) _ 0 _ (le_refl _)
      (fun x hx => absurd hx (Nat.not_lt_zero x)) i hcon
    rw [getD_map_ag _ _ _ hi] at this
    exact absurd h1 (not_le.mpr this)
  have hhigh : i < searchsorted_right
      ((sort_by_start groups).map (fun h => (h.start : ℚ)))
      ((g.end_ : ℚ) + lg.max_separation / s) := by
    by_contra hcon
    push_neg at hcon
    have := bisect_right_aux_gt
      ((sort_by_start groups).map (fun h => (h.start : ℚ)))
      ((g.end_ : ℚ) + lg.max_separation / s)
      (sorted_getD_mono _ hstarts) _ 0 _ (le_refl _) (by omega)
      (fun x hx hxlen => absurd (lt_of_le_of_lt hx hxlen)
        (lt_irrefl _)) i hcon (by simpa using hi)
    rw [getD_map_ag _ _ _ hi] at this
    exact absurd h2 (not_le.mpr this)
  rw [List.mem_range'_1]
  omega

set_option maxRecDepth 400000 in
/-- C2 (counterexample): the claim fails without the nondecreasing-ends
premise.  With start-sorted groups of intervals `[0,50]`, `[1,1]`, `[2,60]`
(ends not sorted), group `[2,60]` searches for partners with `delta = 0`:
index `0` satisfies `ends[0] = 50 ≥ 2 = g.start - delta` and
`starts[0] = 0 ≤ 60 = g.end + delta`, yet the bisection misses it. -/
theorem claim_C2_counterexample :
    lgWin.position.sampling = some 1 ∧
    cgLate ∈ sort_by_start [cgLong, cgShort, cgLate] ∧
    (cgLate.start : ℚ) - lgWin.max_separation / 1 ≤
      (((sort_by_start [cgLong, cgShort, cgLate]).getD 0 default).end_ : ℚ) ∧
    (((sort_by_start [cgLong, cgShort, cgLate]).getD 0 default).start : ℚ) ≤
      (cgLate.end_ : ℚ) + lgWin.max_separation / 1 ∧
    0 ∉ lgWin.in_range_of 1 (sort_by_start [cgLong, cgShort, cgLate])
      cgLate := by
  refine ⟨rfl, ?_, ?_, ?_, ?_⟩
  · with_unfolding_all decide
  · with_unfolding_all decide
  · with_unfolding_all decide
  · with_unfolding_all decide

set_option maxRecDepth 400000 in
/-- C2 (witness): with sorted ends `[1, 3]`, partner `1` of group `gA` is
found by the window search. -/
theorem claim_C2_witness :
    1 ∈ lgN2.in_range_of 1 (sort_by_start [gA, gB]) gA :=
  claim_C2 lgN2 1 rfl [gA, gB] gA (by with_unfolding_all decide)
    (by with_unfolding_all decide) 1 (by with_unfolding_all decide)
    (by with_unfolding_all decide) (by with_unfolding_all decide)

/-! ## C7 — idempotence of the merge on its own output -/

/-- When the input is already deduplicated with `n` subgroups each, the
final filter keeps everything. -/
theorem dedup_filter_aux_eq (n : ℕ) :
    ∀ (gs : List AnomalyGroup) (acc : List (Finset ℕ) × List AnomalyGroup),
      acc.1 = acc.2.map AnomalyGroup.subgroups →
      ((acc.2 ++ gs).map AnomalyGroup.subgroups).Nodup →
      (∀ g ∈ gs, g.subgroups.card = n) →
      gs.foldl
        (fun (acc : List (Finset ℕ) × List AnomalyGroup) g =>
          if g.subgroups.card = n ∧ g.subgroups ∉ acc.1 then
            (acc.1 ++ [g.subgroups], acc.2 ++ [g])
          else acc)
        acc = (acc.1 ++ gs.map AnomalyGroup.subgroups, acc.2 ++ gs) := by
  intro gs
  induction gs with
  | nil => intro acc _ _ _; simp
  | cons g gs ih =>
    intro acc h1 h2 h3
    rw [List.foldl_cons]
    have hnotin : g.subgroups ∉ acc.1 := by
      rw [h1]
      intro hmem
      rw [List.map_append, List.map_cons] at h2
      exact (List.nodup_append.mp h2).2.2 hmem (List.mem_cons_self _ _)
    rw [if_pos ⟨h3 g (List.mem_cons_self g gs), hnotin⟩]
    rw [ih (acc.1 ++ [g.subgroups], acc.2 ++ [g]) (by simp [h1])
      (by rw [List.append_assoc, List.singleton_append]; exact h2)
      (fun x hx => h3 x (List.mem_cons_of_mem _ hx))]
    simp

/-- A list of groups with pairwise-distinct subgroup sets of size `n`
passes the final filter unchanged. -/
theorem dedup_filter_eq_self (n : ℕ) (gs : List AnomalyGroup)
    (hcard : ∀ g ∈ gs, g.subgroups.card = n)
    (hnd : (gs.map AnomalyGroup.subgroups).Nodup) :
    LineGroup.dedup_filter n gs = gs := by
  unfold LineGroup.dedup_filter
  rw [dedup_filter_aux_eq n gs ([], []) (by simp) (by simpa using hnd) hcard]
  simp

/-- No composite can be synthesized from a working list whose groups all
already have `n_groups ≥ 1` subgroups: equal-size operands either
intersect (skipped) or overshoot the subgroup budget. -/
theorem new_composites_nil (lg : LineGroup) (s : ℚ)
    (groups : List AnomalyGroup) (hn : 1 ≤ lg.n_groups)
    (hcard : ∀ g ∈ groups, g.subgroups.card = lg.n_groups) :
    lg.new_composites s groups = [] := by
  rw [List.eq_nil_iff_forall_not_mem]
  intro c hc
  unfold LineGroup.new_composites at hc
  rcases List.mem_flatMap.mp hc with ⟨g, hg, hcand⟩
  unfold LineGroup.merge_candidates at hcand
  rcases List.mem_filterMap.mp hcand with ⟨i, hiin, hsome⟩
  have hilen : i < (sort_by_start groups).length :=
    mem_in_range_lt_length lg s _ g i hiin
  have hgi_mem : (sort_by_start groups).getD i default ∈
      sort_by_start groups := by
    rw [List.getD_eq_getElem _ _ hilen]
    exact List.getElem_mem hilen
  have hgcard : g.subgroups.card = lg.n_groups :=
    hcard g ((List.perm_insertionSort start_le groups).mem_iff.mp hg)
  have hgicard : ((sort_by_start groups).getD i default).subgroups.card =
      lg.n_groups :=
    hcard _ ((List.perm_insertionSort start_le groups).mem_iff.mp hgi_mem)
  by_cases hint : ((sort_by_start groups).getD i default).subgroups ∩
      g.subgroups ≠ ∅
  · rw [if_pos hint] at hsome
    exact absurd hsome (by simp)
  · rw [if_neg hint] at hsome
    rw [if_neg (by omega)] at hsome
    exact absurd hsome (by simp)

/-- On such a working list one merge pass only re-sorts. -/
theorem merge_step_eq_sort (lg : LineGroup) (s : ℚ)
    (groups : List AnomalyGroup) (hn : 1 ≤ lg.n_groups)
    (hcard : ∀ g ∈ groups, g.subgroups.card = lg.n_groups) :
    lg.merge_step s groups = sort_by_start groups := by
  unfold LineGroup.merge_step
  rw [new_composites_nil lg s groups hn hcard, List.append_nil]

/-- Iterating the merge pass on such a working list permutes it. -/
theorem iterate_merge_perm (lg : LineGroup) (s : ℚ) (hn : 1 ≤ lg.n_groups) :
    ∀ (k : ℕ) (groups : List AnomalyGroup),
      (∀ g ∈ groups, g.subgroups.card = lg.n_groups) →
      ((lg.merge_step s)^[k] groups).Perm groups := by
  intro k
  induction k with
  | zero => intro groups _; rw [Function.iterate_zero_apply]
  | succ k ih =>
    intro groups hcard
    rw [Function.iterate_succ_apply,
      merge_step_eq_sort lg s groups hn hcard]
    have hperm : (sort_by_start groups).Perm groups :=
      List.perm_insertionSort start_le groups
    exact (ih (sort_by_start groups)
      (fun g hg => hcard g (hperm.mem_iff.mp hg))).trans hperm

/-- C7: running `group_n_groups` a second time on its own output yields the
same collection of subgroup combinations — no new duplicates and no new
composites appear. -/
theorem claim_C7 (lg : LineGroup) (groups : List AnomalyGroup) :
    ((lg.group_n_groups (lg.group_n_groups groups)).map
      AnomalyGroup.subgroups).Perm
      ((lg.group_n_groups groups).map AnomalyGroup.subgroups) := by
  cases hsamp : lg.position.sampling with
  | none =>
    have h1 : lg.group_n_groups groups = groups := by
      unfold LineGroup.group_n_groups
      rw [hsamp]
    rw [h1]
    have h2 : lg.group_n_groups groups = groups := h1
    rw [h2]
  | some s =>
    have houteq : lg.group_n_groups groups =
        LineGroup.dedup_filter lg.n_groups
          ((lg.merge_step s)^[lg.n_groups] groups) := by
      unfold LineGroup.group_n_groups
      rw [hsamp]
    have hspec := dedup_filter_spec lg.n_groups
      ((lg.merge_step s)^[lg.n_groups] groups)
    have hcard_out : ∀ g ∈ lg.group_n_groups groups,
        g.subgroups.card = lg.n_groups := by
      rw [houteq]; exact hspec.1
    have hnd_out : ((lg.group_n_groups groups).map
        AnomalyGroup.subgroups).Nodup := by
      rw [houteq]; exact hspec.2
    have houter : lg.group_n_groups (lg.group_n_groups groups) =
        LineGroup.dedup_filter lg.n_groups
          ((lg.merge_step s)^[lg.n_groups] (lg.group_n_groups groups)) := by
      unfold LineGroup.group_n_groups
      rw [hsamp]
    by_cases hn : 1 ≤ lg.n_groups
    · have hperm : ((lg.merge_step s)^[lg.n_groups]
          (lg.group_n_groups groups)).Perm (lg.group_n_groups groups) :=
        iterate_merge_perm lg s hn lg.n_groups _ hcard_out
      have heq : LineGroup.dedup_filter lg.n_groups
          ((lg.merge_step s)^[lg.n_groups] (lg.group_n_groups groups)) =
          (lg.merge_step s)^[lg.n_groups] (lg.group_n_groups groups) :=
        dedup_filter_eq_self lg.n_groups _
          (fun g hg => hcard_out g (hperm.mem_iff.mp hg))
          ((hperm.map AnomalyGroup.subgroups).nodup_iff.mpr hnd_out)
      rw [houter, heq]
      exact hperm.map AnomalyGroup.subgroups
    · have hn0 : lg.n_groups = 0 := by omega
      rw [houter, hn0, Function.iterate_zero_apply,
        dedup_filter_eq_self 0 _ (fun g hg => hn0 ▸ hcard_out g hg)
          hnd_out]
